import Mathlib

/-!
Verification development for the quadratic-form / homology-group engine
(`ndqf.py`).  Integer vectors are `List ℤ`, rational vectors are `List ℚ`,
matrices are lists of rows.  Code that can raise a Python exception is
embedded in the `Except String` monad.  The external Smith-normal-form
decomposer (`smith.py`, not part of the sources here) enters only through
its contract: `U * D * V = M` with `U`, `V` unimodular and `D` diagonal.
-/

/-- Dot product of two rational vectors (`numpy` row-by-column product);
`zipWith` mirrors numpy's elementwise multiply on equally sized vectors. -/
def dotQ (u v : List ℚ) : ℚ := (List.zipWith (fun a b => a * b) u v).sum

/-- Matrix-vector product `A v` for a list-of-rows matrix. -/
def matVecQ (A : List (List ℚ)) (v : List ℚ) : List ℚ :=
  A.map (fun row => dotQ row v)

/-- The scalar `u · A · v` (row vector times matrix times column vector). -/
def pairing (A : List (List ℚ)) (u v : List ℚ) : ℚ := dotQ u (matVecQ A v)

/-- Elementwise sum of two integer vectors (numpy `+` on same-shape arrays). -/
def vadd (u v : List ℤ) : List ℤ := List.zipWith (fun a b => a + b) u v

/-- Scalar multiple `c * g` of an integer vector. -/
def smulv (c : ℤ) (g : List ℤ) : List ℤ := g.map (fun x => c * x)

/-- Cast an integer vector to a rational vector. -/
def ratVec (v : List ℤ) : List ℚ := v.map (fun z : ℤ => (z : ℚ))

/-- Cast an integer matrix to a rational matrix. -/
def intMatToQ (A : List (List ℤ)) : List (List ℚ) := A.map ratVec

/-- `np.diagonal`: the main diagonal of a square list-of-rows matrix. -/
def np_diagonal (m : List (List ℤ)) : List ℤ :=
  (List.range m.length).map (fun i => (m.getD i []).getD i 0)

/-- Python `range(a, b)` over natural numbers: `[a, a+1, ..., b-1]`,
empty when `b ≤ a`. -/
def pyRange (a b : ℕ) : List ℕ := (List.range (b - a)).map (fun k => a + k)

/-- `nontrivial(mat)`: keep the entries of a one-dimensional array that are
not equal to `1` (numpy boolean-mask indexing `mat[mat != 1]` preserves
order).  Note only the value `1` is dropped; `-1` is kept. -/
def nontrivial (mat : List ℤ) : List ℤ := mat.filter (fun x => x != 1)

/-- The homology group `Hom_Group`: structure sequence, generating vectors
and relation vectors. -/
structure Hom_Group where
  structure' : List ℤ
  gen : List (List ℤ)
  rel : List (List ℤ)

/-- `Hom_Group.__init__(diagonal, rows)`: read the invariant factors off the
diagonal, keep the nontrivial ones as `structure`, and split the rows of
`rows` into trailing generators and leading relations. -/
def Hom_Group.init (diagonal rows : List (List ℤ)) : Hom_Group :=
  let invariant_factors := np_diagonal diagonal
  let matters := nontrivial invariant_factors
  let group_rank := matters.length
  let vect_dim := diagonal.length
  let start := vect_dim - group_rank
  { structure' := matters
  , gen := (pyRange start vect_dim).map (fun i => rows.getD i [])
  , rel := (pyRange 0 start).map (fun i => rows.getD i []) }

/-- The state of an `NDQF` instance after `__init__`: the matrix, its exact
rational inverse, the basepoint of the affine space, and the homology
group.  (The decomposition itself is retained only through these fields.) -/
structure NDQF where
  mat : List (List ℤ)
  mat_inverse : List (List ℚ)
  basepoint : List ℤ
  group : Hom_Group

/-- `NDQF.eval(u, v, inverse)`: checks `u.size == v.size == n` and returns
`u · M · v` (or `u · M⁻¹ · v`), raising `ValueError` otherwise. -/
def NDQF.eval (Q : NDQF) (u v : List ℚ) (inverse : Bool) : Except String ℚ :=
  if u.length = v.length ∧ v.length = Q.mat.length then
    .ok (pairing (if inverse then Q.mat_inverse else intMatToQ Q.mat) u v)
  else
    .error "Inappropriately sized vectors for eval."

/-- `NDQF.find_abs(alpha)`: the scalar `eval(alpha, alpha, inverse=True)`. -/
def NDQF.find_abs (Q : NDQF) (alpha : List ℚ) : Except String ℚ :=
  Q.eval alpha alpha true

/-- `NDQF.find_rep(coef_list)`: `basepoint + sum(c * g for (c, g) in
zip(coef_list, gen))`.  Python's `zip` silently truncates to the shorter
of the two lists; no length check is performed. -/
def NDQF.find_rep (Q : NDQF) (coef_list : List ℤ) : List ℤ :=
  ((coef_list.zip Q.group.gen).map (fun p => smulv p.1 p.2)).foldl vadd Q.basepoint

/-- The even integers `i` with `lo ≤ i < hi`, in increasing order
(`[i for i in range(lo, hi) if i % 2 == 0]`). -/
def evens (lo hi : ℤ) : List ℤ :=
  ((List.range (hi - lo).toNat).map (fun k : ℕ => lo + (k : ℤ))).filter
    (fun j => j % 2 == 0)

/-- `NDQF.max_bounds(rep)`: for each coordinate `index` with diagonal
magnitude `ndiag = -M[index,index]`, the even integers in
`range(-ndiag - rep[index], ndiag + 1 - rep[index])`, together with the
list of their sizes. -/
def NDQF.max_bounds (Q : NDQF) (rep : List ℤ) : List (List ℤ) × List ℤ :=
  let diag_vals := (List.range Q.mat.length).map
    (fun v => -((Q.mat.getD v []).getD v 0))
  let max_list := diag_vals.enum.map
    (fun p => evens (-p.2 - rep.getD p.1 0) (p.2 + 1 - rep.getD p.1 0))
  (max_list, max_list.map (fun lst => (lst.length : ℤ)))

/-- `NDQF.increment(counter, pos, diag)`: increment the mixed-radix counter
at position `pos`; when position `pos` holds its maximal digit
`diag[pos] - 1` it is reset to `0` and the carry moves to `pos + 1`;
running past the end of `counter` raises `ValueError`.  The Python
recursion keeps the full list and moves the index `pos`; here the list and
`diag` are consumed structurally, which is the same function (position
`pos + 1` of `c :: cs` is position `pos` of `cs`). -/
def increment : List ℤ → ℕ → List ℤ → Except String (List ℤ)
  | [], _, _ => .error "Cannot increment counter any further; at end"
  | c :: cs, 0, diag =>
    if c ≥ diag.getD 0 0 - 1 then
      (increment cs 0 diag.tail).map (fun t => (0 : ℤ) :: t)
    else
      .ok ((c + 1) :: cs)
  | c :: cs, pos + 1, diag =>
    (increment cs pos diag.tail).map (fun t => c :: t)

/-- The loop body of `NDQF.get_beta`: run `fuel` iterations; in each one
yield the vector selected by `counter` from `max_list`, stop after the
yield if `counter` equals `max_list_sizes2`, and otherwise increment the
counter (an exception from `increment` aborts the whole enumeration). -/
def betaLoop (max_list : List (List ℤ)) (sizes sizes2 : List ℤ) (len : ℕ) :
    ℕ → List ℤ → Except String (List (List ℤ))
  | 0, _ => .ok []
  | fuel + 1, counter =>
    let beta := (List.range len).map
      (fun i => (max_list.getD i []).getD ((counter.getD i 0).toNat) 0)
    if counter = sizes2 then
      .ok [beta]
    else
      match increment counter 0 sizes with
      | .error e => .error e
      | .ok c2 => (betaLoop max_list sizes sizes2 len fuel c2).map
          (fun rest => beta :: rest)

/-- `NDQF.get_beta(rep)`: enumerate all shift vectors, driving the counter
through `prod(max_list_sizes)` iterations starting from the all-zero
counter.  Python's `reduce` raises on an empty size list (a 0-dimensional
matrix). -/
def NDQF.get_beta (Q : NDQF) (rep : List ℤ) : Except String (List (List ℤ)) :=
  let mb := Q.max_bounds rep
  let max_list := mb.1
  let max_list_sizes := mb.2
  let max_list_sizes2 := max_list_sizes.map (fun v => v - 1)
  let length := Q.mat.length
  match max_list_sizes with
  | [] => .error "reduce() of empty sequence with no initial value"
  | s :: ss =>
    betaLoop max_list max_list_sizes max_list_sizes2 length
      ((ss.foldl (fun x y => x * y) s).toNat) (List.replicate length 0)

/-- `lrange(index_list)`: the coefficient lists
`range(i1) x range(i2) x ...`, the first coordinate varying slowest. -/
def lrange : List ℤ → List (List ℤ)
  | [] => [[]]
  | i :: rest =>
    ((List.range i.toNat).map
      (fun i_sub : ℕ => (lrange rest).map (fun l => ((i_sub : ℤ)) :: l))).flatten

/-- `sys.maxint` on a 64-bit platform; `-maxint - 1` is the smallest int,
the initial value of the maximization in `correction_terms`. -/
def maxint : ℚ := 2 ^ 63 - 1

/-- The inner loop of `correction_terms`: fold the running maximum over the
beta vectors, evaluating `find_abs(rep + beta)` at each step. -/
def maxFold (Q : NDQF) (rep : List ℤ) : List (List ℤ) → ℚ → Except String ℚ
  | [], maxval => .ok maxval
  | beta :: rest, maxval =>
    match Q.find_abs (ratVec (vadd rep beta)) with
    | .error e => .error e
    | .ok alphaval =>
      maxFold Q rep rest (if alphaval > maxval then alphaval else maxval)

/-- One equivalence class of `correction_terms`: generate the betas for a
representative and take the maximum, starting from `-maxint - 1`. -/
def classMax (Q : NDQF) (rep : List ℤ) : Except String ℚ :=
  match Q.get_beta rep with
  | .error e => .error e
  | .ok betas => maxFold Q rep betas (-maxint - 1)

/-- The outer loop of `correction_terms` over the representatives,
collecting `listofmaxes` (an exception aborts the whole computation). -/
def corrLoop (Q : NDQF) : List (List ℤ) → Except String (List ℚ)
  | [] => .ok []
  | rep :: rest =>
    match classMax Q rep with
    | .error e => .error e
    | .ok maxval =>
      match corrLoop Q rest with
      | .error e => .error e
      | .ok tail => .ok (maxval :: tail)

/-- `NDQF.correction_terms()`: one maximum per coefficient list of
`lrange(structure)`, each representative searched over its betas. -/
def NDQF.correction_terms (Q : NDQF) : Except String (List ℚ) :=
  corrLoop Q ((lrange Q.group.structure').map (fun l => Q.find_rep l))

/-- Little-endian mixed-radix digits of `k` for the radix list `sizes`
(coordinate 0 is the fastest-varying digit); stated from the spec's words
to compare with the enumeration order of `get_beta`. -/
def mixedRadix : List ℤ → ℕ → List ℤ
  | [], _ => []
  | s :: ss, k => ((k % s.toNat : ℕ) : ℤ) :: mixedRadix ss (k / s.toNat)

/-- The beta vector that the mixed-radix description predicts at index `k`
of the enumeration. -/
def betaAt (max_list : List (List ℤ)) (sizes : List ℤ) (len k : ℕ) : List ℤ :=
  (List.range len).map
    (fun i => (max_list.getD i []).getD (((mixedRadix sizes k).getD i 0).toNat) 0)

/-- `flip(n)` from `rational_inverse`: `Fraction(1, n)` for nonzero `n`,
and `0` for `n = 0`.  (Named `flipQ` because core Lean already exports a
`flip`.) -/
def flipQ (n : ℚ) : ℚ := if n = 0 then 0 else 1 / n

/-- `np.rint(...)`: round every entry to the nearest integer.  (The Python
code takes the floating-point inverse `matrix.I` and rounds; with the
unimodularity contract the true inverse is an integer matrix, so the ideal
arithmetic modelled here — exact rational inverse, then entrywise rounding
— is the intended behaviour the rounding step restores.) -/
def rint {n : ℕ} (A : Matrix (Fin n) (Fin n) ℚ) : Matrix (Fin n) (Fin n) ℚ :=
  A.map (fun x => ((round x : ℤ) : ℚ))

/-- `matrix.I` in exact arithmetic: the inverse of a square rational matrix
(`det⁻¹ • adjugate`, which agrees with Mathlib's noncomputable
`Matrix.inv` and is `0`-entried garbage for singular input, exactly like
the convention used by `Matrix.inv`). -/
def matI {n : ℕ} (A : Matrix (Fin n) (Fin n) ℚ) : Matrix (Fin n) (Fin n) ℚ :=
  (A.det)⁻¹ • A.adjugate

/-- `NDQF.rational_inverse(diag, left, right)`: with `left * diag * right`
the Smith decomposition of `m`, return
`rint(right.I) * flip(diag) * rint(left.I)`, i.e.
`right⁻¹ · diag⁻¹ · left⁻¹ = m⁻¹`. -/
def rational_inverse {n : ℕ} (diag left right : Matrix (Fin n) (Fin n) ℚ) :
    Matrix (Fin n) (Fin n) ℚ :=
  (rint (matI right)) * (diag.map flipQ) * (rint (matI left))

/-- Cast an integer matrix to a rational matrix (entrywise). -/
def qmat {n : ℕ} (A : Matrix (Fin n) (Fin n) ℤ) : Matrix (Fin n) (Fin n) ℚ :=
  A.map (fun z : ℤ => (z : ℚ))

/-- View an `n × n` list-of-rows integer matrix as a function matrix. -/
def listToMatQ (n : ℕ) (L : List (List ℤ)) : Matrix (Fin n) (Fin n) ℚ :=
  Matrix.of (fun i j : Fin n => (((L.getD i []).getD j 0 : ℤ) : ℚ))

/-- View a function matrix as a list-of-rows matrix. -/
def matQToList (n : ℕ) (A : Matrix (Fin n) (Fin n) ℚ) : List (List ℚ) :=
  (List.finRange n).map (fun i => (List.finRange n).map (fun j => A i j))

/-- `NDQF.__init__` given a Smith decomposition `u * d * v = mat` of the
input matrix (the decomposition itself comes from the external
`smith_normal_form`): store the matrix, the rational inverse, the
basepoint `np.diagonal(mat) % 2`, and the homology group built from `d`
and the rows of `v`. -/
def NDQF.mk_from (mat d u v : List (List ℤ)) : NDQF :=
  { mat := mat
  , mat_inverse := matQToList mat.length
      (rational_inverse (listToMatQ mat.length d) (listToMatQ mat.length u)
        (listToMatQ mat.length v))
  , basepoint := (np_diagonal mat).map (fun x => x % 2)
  , group := Hom_Group.init d v }

/-- Modelled from the spec: the external Smith-normal-form decomposer for a
1×1 input `[[m]]`.  The spec requires `U * D * V = M` with `U, V`
unimodular and `D` carrying the invariant-factor magnitudes, so the sign
of `m` is absorbed into the left unimodular factor:
`[[sign m]] * [[|m|]] * [[1]] = [[m]]`. -/
def smith_normal_form_1x1 (m : ℤ) :
    List (List ℤ) × (List (List ℤ) × List (List ℤ)) :=
  ([[(m.natAbs : ℤ)]], ([[if m < 0 then -1 else 1]], [[1]]))

/-- The `NDQF` instance the program builds for the 1×1 matrix `[[-n]]`. -/
def ndqf_neg (n : ℕ) : NDQF :=
  let dec := smith_normal_form_1x1 (-(n : ℤ))
  NDQF.mk_from [[-(n : ℤ)]] dec.1 dec.2.1 dec.2.2

/-- Stated from the spec's words, for comparison with `NDQF.find_rep`:
`findRepresentative` is required to fail when
`len(coefficients) != len(structure)` and to return
`basepoint + Σ coefficients[i] * generators[i]` otherwise. -/
def find_rep_checked (Q : NDQF) (coef_list : List ℤ) : Except String (List ℤ) :=
  if coef_list.length = Q.group.structure'.length then
    .ok (((coef_list.zip Q.group.gen).map (fun p => smulv p.1 p.2)).foldl vadd
      Q.basepoint)
  else
    .error "Coefficient list length does not match the group structure."

/-- Modelled from the spec: the contract of the external
`smith_normal_form` — `D` diagonal, `U` and `V` unimodular (invertible
over the integers, i.e. determinant `±1`), and `U * D * V = M`. -/
def is_smith_decomp {n : ℕ} (M D U V : Matrix (Fin n) (Fin n) ℤ) : Prop :=
  (∃ dv : Fin n → ℤ, D = Matrix.diagonal dv) ∧
    (U.det = 1 ∨ U.det = -1) ∧ (V.det = 1 ∨ V.det = -1) ∧ U * D * V = M

/-- A concrete quadratic-form instance for witnesses: the form `[[-1]]`
(inverse `[[-1]]`, basepoint `[1]`, trivial discriminant group). -/
def Q0 : NDQF := ⟨[[-1]], [[-1]], [1], ⟨[], [], [[1]]⟩⟩

/-- A concrete quadratic-form instance for witnesses and counterexamples:
the form `[[-2]]` (inverse `[[-1/2]]`, basepoint `[0]`, group `Z/2`). -/
def Qc2 : NDQF := ⟨[[-2]], [[-(1/2 : ℚ)]], [0], ⟨[2], [[1]], []⟩⟩

/-- The number of iterations `prod(sizes)` of the `get_beta` loop, as a
natural number (the sizes are lengths, hence nonnegative). -/
def prodNat (sizes : List ℤ) : ℕ := (sizes.map Int.toNat).prod

/-- The value `find_abs(rep + beta)` that `correction_terms` maximizes:
`(rep + beta) · M⁻¹ · (rep + beta)`. -/
def classVal (Q : NDQF) (rep beta : List ℤ) : ℚ :=
  pairing Q.mat_inverse (ratVec (vadd rep beta)) (ratVec (vadd rep beta))

/-- The running maximum of the loop in `correction_terms`: fold the update
`if x > m then x else m` over the values, starting from `a`. -/
def runningMax (xs : List ℚ) (a : ℚ) : ℚ :=
  xs.foldl (fun m x => if x > m then x else m) a

/-- The scalar that `correction_terms` records for one representative (the
`ok` value of `classMax`, with an irrelevant default for the error case). -/
def classMaxVal (Q : NDQF) (rep : List ℤ) : ℚ :=
  (classMax Q rep).toOption.getD 0

lemma vadd_length (u v : List ℤ) : (vadd u v).length = min u.length v.length := by
  simp [vadd]

lemma smulv_length (c : ℤ) (g : List ℤ) : (smulv c g).length = g.length := by
  simp [smulv]

lemma vadd_getD (u v : List ℤ) (j : ℕ) (hu : j < u.length) (hv : j < v.length) :
    (vadd u v).getD j 0 = u.getD j 0 + v.getD j 0 := by
  induction u generalizing v j with
  | nil => simp at hu
  | cons a u ih =>
    cases v with
    | nil => simp at hv
    | cons b v =>
      cases j with
      | zero => simp [vadd]
      | succ j =>
        simp only [vadd, List.zipWith_cons_cons, List.getD_cons_succ]
        exact ih v j (by simpa using hu) (by simpa using hv)

lemma smulv_getD (c : ℤ) (g : List ℤ) (j : ℕ) (hj : j < g.length) :
    (smulv c g).getD j 0 = c * g.getD j 0 := by
  induction g generalizing j with
  | nil => simp at hj
  | cons a g ih =>
    cases j with
    | zero => simp [smulv]
    | succ j =>
      simp only [smulv, List.map_cons, List.getD_cons_succ]
      exact ih j (by simpa using hj)

lemma foldl_vadd_length (us : List (List ℤ)) (acc : List ℤ)
    (h : ∀ u ∈ us, u.length = acc.length) :
    (us.foldl vadd acc).length = acc.length := by
  induction us generalizing acc with
  | nil => rfl
  | cons u us ih =>
    have hu : u.length = acc.length := h u (by simp)
    have hlen : (vadd acc u).length = acc.length := by
      rw [vadd_length, hu]; omega
    simp only [List.foldl_cons]
    rw [ih (vadd acc u) (fun w hw => by rw [hlen]; exact h w (by simp [hw])), hlen]

lemma foldl_vadd_getD (us : List (List ℤ)) (acc : List ℤ) (j : ℕ)
    (h : ∀ u ∈ us, u.length = acc.length) (hj : j < acc.length) :
    (us.foldl vadd acc).getD j 0
      = acc.getD j 0 + (us.map (fun u => u.getD j 0)).sum := by
  induction us generalizing acc with
  | nil => simp
  | cons u us ih =>
    have hu : u.length = acc.length := h u (by simp)
    have hlen : (vadd acc u).length = acc.length := by
      rw [vadd_length, hu]; omega
    simp only [List.foldl_cons, List.map_cons, List.sum_cons]
    rw [ih (vadd acc u) (fun w hw => by rw [hlen]; exact h w (by simp [hw]))
        (by omega : j < (vadd acc u).length),
      vadd_getD acc u j hj (by omega), add_assoc]

lemma find_rep_mem_length (Q : NDQF) (l : List ℤ)
    (hg : ∀ g ∈ Q.group.gen, g.length = Q.basepoint.length) :
    ∀ u ∈ (l.zip Q.group.gen).map (fun p => smulv p.1 p.2),
      u.length = Q.basepoint.length := by
  intro u hu
  obtain ⟨p, hp, rfl⟩ := List.mem_map.1 hu
  rw [smulv_length]
  exact hg p.2 (List.of_mem_zip hp).2

lemma find_rep_length (Q : NDQF) (l : List ℤ)
    (hg : ∀ g ∈ Q.group.gen, g.length = Q.basepoint.length) :
    (Q.find_rep l).length = Q.basepoint.length :=
  foldl_vadd_length _ _ (find_rep_mem_length Q l hg)

lemma max_bounds_fst_length (Q : NDQF) (rep : List ℤ) :
    (Q.max_bounds rep).1.length = Q.mat.length := by
  simp [NDQF.max_bounds]

lemma max_bounds_snd_length (Q : NDQF) (rep : List ℤ) :
    (Q.max_bounds rep).2.length = Q.mat.length := by
  simp [NDQF.max_bounds]

lemma max_bounds_fst_getD (Q : NDQF) (rep : List ℤ) (i : ℕ)
    (hi : i < Q.mat.length) :
    (Q.max_bounds rep).1.getD i []
      = evens (-(-((Q.mat.getD i []).getD i 0)) - rep.getD i 0)
          (-((Q.mat.getD i []).getD i 0) + 1 - rep.getD i 0) := by
  have hlen : (Q.max_bounds rep).1.length = Q.mat.length := max_bounds_fst_length Q rep
  rw [List.getD_eq_getElem _ _ (by omega)]
  simp [NDQF.max_bounds, hi]

lemma max_bounds_snd_getD (Q : NDQF) (rep : List ℤ) (i : ℕ)
    (hi : i < Q.mat.length) :
    (Q.max_bounds rep).2.getD i 0 = (((Q.max_bounds rep).1.getD i []).length : ℤ) := by
  have h1 : (Q.max_bounds rep).1.length = Q.mat.length := max_bounds_fst_length Q rep
  have h2 : (Q.max_bounds rep).2.length = Q.mat.length := max_bounds_snd_length Q rep
  rw [List.getD_eq_getElem _ _ (by omega), List.getD_eq_getElem _ _ (by omega)]
  simp only [NDQF.max_bounds]
  simp

lemma mem_evens (lo hi j : ℤ) :
    j ∈ evens lo hi ↔ lo ≤ j ∧ j < hi ∧ j % 2 = 0 := by
  constructor
  · intro h
    obtain ⟨hmem, hmod⟩ := List.mem_filter.mp h
    obtain ⟨k, hk, hkj⟩ := List.mem_map.mp hmem
    rw [List.mem_range] at hk
    have hm : j % 2 = 0 := by simpa using hmod
    omega
  · rintro ⟨h1, h2, hmod⟩
    refine List.mem_filter.mpr
      ⟨List.mem_map.mpr ⟨(j - lo).toNat, ?_, by omega⟩, by simpa using hmod⟩
    rw [List.mem_range]
    omega

lemma evens_length (lo : ℤ) (m : ℕ) :
    (evens lo (lo + (m : ℤ))).length
      = (m + (if lo % 2 = 0 then 1 else 0)) / 2 := by
  induction m with
  | zero =>
    have h0 : (lo + (0 : ℤ) - lo).toNat = 0 := by omega
    have hnil : evens lo (lo + (0 : ℕ)) = [] := by
      simp [evens, h0]
    rw [hnil]
    by_cases h : lo % 2 = 0 <;> simp [h]
  | succ m ih =>
    have h2 : (lo + (m : ℤ) - lo).toNat = m := by omega
    have key : evens lo (lo + ((m : ℕ) + 1 : ℕ)) = evens lo (lo + (m : ℤ)) ++
        (if (lo + (m : ℤ)) % 2 = 0 then [lo + (m : ℤ)] else []) := by
      simp only [evens, h2]
      have hc : ((lo + ((m : ℕ) + 1 : ℕ)) - lo).toNat = m + 1 := by
        push_cast
        omega
      rw [hc, List.range_succ, List.map_append, List.filter_append]
      congr 1
      by_cases h : (lo + (m : ℤ)) % 2 = 0 <;> simp [h]
    rw [key, List.length_append, ih]
    by_cases h : (lo + (m : ℤ)) % 2 = 0 <;> by_cases h' : lo % 2 = 0 <;>
      simp [h, h'] <;> omega

lemma mixedRadix_zero (sizes : List ℤ) :
    mixedRadix sizes 0 = List.replicate sizes.length 0 := by
  induction sizes with
  | nil => rfl
  | cons s ss ih => simp [mixedRadix, ih, List.replicate_succ]

lemma prodNat_cons (s : ℤ) (ss : List ℤ) :
    prodNat (s :: ss) = s.toNat * prodNat ss := by
  simp [prodNat]

lemma prodNat_pos (sizes : List ℤ) (hpos : ∀ s ∈ sizes, 0 < s) :
    0 < prodNat sizes := by
  refine List.prod_pos ?_
  intro x hx
  obtain ⟨y, hy, rfl⟩ := List.mem_map.1 hx
  have := hpos y hy
  omega

lemma increment_mixedRadix (sizes : List ℤ) (k : ℕ)
    (hpos : ∀ s ∈ sizes, 0 < s) (hk : k + 1 < prodNat sizes) :
    increment (mixedRadix sizes k) 0 sizes = .ok (mixedRadix sizes (k + 1)) := by
  induction sizes generalizing k with
  | nil => simp [prodNat] at hk
  | cons s ss ih =>
    have hs : 0 < s := hpos s (by simp)
    have hsN : 0 < s.toNat := by omega
    have hmodlt : k % s.toNat < s.toNat := Nat.mod_lt _ hsN
    have hdm := Nat.div_add_mod k s.toNat
    by_cases hcarry : k % s.toNat = s.toNat - 1
    · have hma : s.toNat * (k / s.toNat + 1) = s.toNat * (k / s.toNat) + s.toNat := by
        ring
      have hrep : k + 1 = s.toNat * (k / s.toNat + 1) := by omega
      have hklt : k / s.toNat + 1 < prodNat ss := by
        have hkP : k + 1 < s.toNat * prodNat ss := by
          rw [prodNat_cons] at hk; exact hk
        rw [hrep] at hkP
        exact Nat.lt_of_mul_lt_mul_left hkP
      have hih := ih (k / s.toNat)
        (fun x hx => hpos x (List.mem_cons_of_mem _ hx)) hklt
      have hcond : ((k % s.toNat : ℕ) : ℤ) ≥ (s :: ss).getD 0 0 - 1 := by
        simp only [List.getD_cons_zero]
        omega
      rw [mixedRadix, increment, if_pos hcond]
      have h1 : (k + 1) % s.toNat = 0 := by
        rw [hrep]; exact Nat.mul_mod_right _ _
      have h2 : (k + 1) / s.toNat = k / s.toNat + 1 := by
        rw [hrep]; exact Nat.mul_div_cancel_left _ hsN
      rw [List.tail_cons, hih]
      simp [mixedRadix, h1, h2, Except.map]
    · have hcond : ¬ (((k % s.toNat : ℕ) : ℤ) ≥ (s :: ss).getD 0 0 - 1) := by
        simp only [List.getD_cons_zero]
        omega
      rw [mixedRadix, increment, if_neg hcond]
      have h1 : (k + 1) % s.toNat = k % s.toNat + 1 := by
        have hrep : k + 1 = s.toNat * (k / s.toNat) + (k % s.toNat + 1) := by omega
        rw [hrep, Nat.mul_add_mod]
        exact Nat.mod_eq_of_lt (by omega)
      have h2 : (k + 1) / s.toNat = k / s.toNat := by
        have hrep : k + 1 = s.toNat * (k / s.toNat) + (k % s.toNat + 1) := by omega
        rw [hrep, Nat.mul_add_div hsN]
        have : (k % s.toNat + 1) / s.toNat = 0 := Nat.div_eq_of_lt (by omega)
        omega
      simp [mixedRadix, h1, h2]

lemma mixedRadix_last (sizes : List ℤ) (hpos : ∀ s ∈ sizes, 0 < s) :
    mixedRadix sizes (prodNat sizes - 1) = sizes.map (fun v => v - 1) := by
  induction sizes with
  | nil => rfl
  | cons s ss ih =>
    have hs : 0 < s := hpos s (by simp)
    have hsN : 0 < s.toNat := by omega
    have hP : 0 < prodNat ss :=
      prodNat_pos ss (fun x hx => hpos x (List.mem_cons_of_mem _ hx))
    have hN : prodNat (s :: ss) = s.toNat * prodNat ss := prodNat_cons s ss
    have hma : s.toNat * prodNat ss = s.toNat * (prodNat ss - 1) + s.toNat := by
      have h1 : prodNat ss - 1 + 1 = prodNat ss := by omega
      calc s.toNat * prodNat ss = s.toNat * (prodNat ss - 1 + 1) := by rw [h1]
        _ = s.toNat * (prodNat ss - 1) + s.toNat := by ring
    have hrep : prodNat (s :: ss) - 1
        = s.toNat * (prodNat ss - 1) + (s.toNat - 1) := by
      omega
    rw [mixedRadix, hrep]
    have h1 : (s.toNat * (prodNat ss - 1) + (s.toNat - 1)) % s.toNat
        = s.toNat - 1 := by
      rw [Nat.mul_add_mod]
      exact Nat.mod_eq_of_lt (by omega)
    have h2 : (s.toNat * (prodNat ss - 1) + (s.toNat - 1)) / s.toNat
        = prodNat ss - 1 := by
      rw [Nat.mul_add_div hsN]
      have : (s.toNat - 1) / s.toNat = 0 := Nat.div_eq_of_lt (by omega)
      omega
    rw [h1, h2, ih (fun x hx => hpos x (List.mem_cons_of_mem _ hx))]
    simp only [List.map_cons, List.cons.injEq]
    exact ⟨by omega, trivial⟩

lemma mixedRadix_eq_last (sizes : List ℤ) (k : ℕ)
    (hpos : ∀ s ∈ sizes, 0 < s) (hk : k < prodNat sizes)
    (heq : mixedRadix sizes k = sizes.map (fun v => v - 1)) :
    k + 1 = prodNat sizes := by
  induction sizes generalizing k with
  | nil =>
    simp [prodNat] at hk ⊢
    omega
  | cons s ss ih =>
    have hs : 0 < s := hpos s (by simp)
    have hsN : 0 < s.toNat := by omega
    rw [mixedRadix, List.map_cons] at heq
    injection heq with hhead htail
    have hN : prodNat (s :: ss) = s.toNat * prodNat ss := prodNat_cons s ss
    have hdivlt : k / s.toNat < prodNat ss := by
      rw [hN] at hk
      exact Nat.div_lt_of_lt_mul hk
    have hP := ih (k / s.toNat)
      (fun x hx => hpos x (List.mem_cons_of_mem _ hx)) hdivlt htail
    have hmod : k % s.toNat = s.toNat - 1 := by omega
    have hdm := Nat.div_add_mod k s.toNat
    have hdiv : k / s.toNat = prodNat ss - 1 := by
      revert hP
      generalize k / s.toNat = q
      intro hP
      omega
    rw [hdiv] at hdm
    rw [hN]
    have hma : s.toNat * prodNat ss = s.toNat * (prodNat ss - 1) + s.toNat := by
      have h1 : prodNat ss - 1 + 1 = prodNat ss := by omega
      calc s.toNat * prodNat ss = s.toNat * (prodNat ss - 1 + 1) := by rw [h1]
        _ = s.toNat * (prodNat ss - 1) + s.toNat := by ring
    omega

lemma foldl_mul_eq_prod (s : ℤ) (ss : List ℤ) :
    ss.foldl (fun x y => x * y) s = s * ss.prod := by
  induction ss generalizing s with
  | nil => simp
  | cons a t ih =>
    simp only [List.foldl_cons, List.prod_cons, ih]
    ring

lemma prodNat_cast (sizes : List ℤ) (hpos : ∀ s ∈ sizes, 0 < s) :
    ((prodNat sizes : ℕ) : ℤ) = sizes.prod := by
  induction sizes with
  | nil => simp [prodNat]
  | cons s ss ih =>
    have hs : 0 < s := hpos s (by simp)
    rw [prodNat_cons, List.prod_cons]
    push_cast
    rw [Int.toNat_of_nonneg hs.le,
      ih (fun x hx => hpos x (List.mem_cons_of_mem _ hx))]

lemma betaLoop_digits (max_list : List (List ℤ)) (sizes : List ℤ) (len : ℕ)
    (hpos : ∀ s ∈ sizes, 0 < s) :
    ∀ (fuel k : ℕ), k + fuel = prodNat sizes →
      betaLoop max_list sizes (sizes.map (fun v => v - 1)) len fuel
          (mixedRadix sizes k)
        = .ok ((List.range' k fuel).map (betaAt max_list sizes len)) := by
  intro fuel
  induction fuel with
  | zero => intro k hk; rfl
  | succ f ih =>
    intro k hk
    rw [betaLoop]
    cases f with
    | zero =>
      have hklast : k = prodNat sizes - 1 := by omega
      have hcond : mixedRadix sizes k = sizes.map (fun v => v - 1) := by
        rw [hklast]; exact mixedRadix_last sizes hpos
      rw [if_pos hcond, List.range'_one, List.map_singleton]
      rfl
    | succ f' =>
      have hklt : k < prodNat sizes := by omega
      have hcond : ¬ (mixedRadix sizes k = sizes.map (fun v => v - 1)) := by
        intro h
        have := mixedRadix_eq_last sizes k hpos hklt h
        omega
      have hbl := ih (k + 1) (by omega)
      rw [if_neg hcond]
      simp only [increment_mixedRadix sizes k hpos (by omega), hbl]
      rw [List.range'_succ, List.map_cons]
      rfl

lemma get_beta_ok (Q : NDQF) (rep : List ℤ) (hn : Q.mat.length ≠ 0)
    (hpos : ∀ s ∈ (Q.max_bounds rep).2, 0 < s) :
    Q.get_beta rep = .ok ((List.range (prodNat (Q.max_bounds rep).2)).map
      (betaAt (Q.max_bounds rep).1 (Q.max_bounds rep).2 Q.mat.length)) := by
  have hlen : (Q.max_bounds rep).2.length = Q.mat.length := max_bounds_snd_length Q rep
  obtain ⟨s, ss, hss⟩ : ∃ s ss, (Q.max_bounds rep).2 = s :: ss := by
    cases h : (Q.max_bounds rep).2 with
    | nil => rw [h] at hlen; simp at hlen; omega
    | cons a t => exact ⟨a, t, rfl⟩
  have hprod : ((prodNat (Q.max_bounds rep).2 : ℕ) : ℤ) = (Q.max_bounds rep).2.prod :=
    prodNat_cast _ hpos
  have hcount : (ss.foldl (fun x y => x * y) s).toNat
      = prodNat (Q.max_bounds rep).2 := by
    rw [foldl_mul_eq_prod, ← List.prod_cons, ← hss, ← hprod, Int.toNat_natCast]
  have hrepl : List.replicate Q.mat.length 0 = mixedRadix (Q.max_bounds rep).2 0 := by
    rw [mixedRadix_zero, hlen]
  rw [NDQF.get_beta]
  simp only [hss]
  rw [← hss, hcount, hrepl]
  exact (betaLoop_digits (Q.max_bounds rep).1 (Q.max_bounds rep).2 Q.mat.length hpos
    (prodNat (Q.max_bounds rep).2) 0 (by omega)).trans
    (by rw [List.range_eq_range'])

lemma pyRange_split (n k : ℕ) (f : ℕ → List ℤ) (hk : k ≤ n) :
    (pyRange 0 (n - k)).map f ++ (pyRange (n - k) n).map f
      = (List.range n).map f := by
  have h1 : n = (n - k) + k := by omega
  rw [pyRange, pyRange, List.map_map, List.map_map]
  have e1 : n - k - 0 = n - k := by omega
  have e2 : n - (n - k) = k := by omega
  rw [e1, e2]
  conv_rhs => rw [h1, List.range_add, List.map_append, List.map_map]
  congr 1
  apply List.map_congr_left
  intro a ha
  simp

lemma getD_map_of_lt {α β : Type} (xs : List α) (f : α → β) (i : ℕ)
    (d : α) (db : β) (hi : i < xs.length) :
    (xs.map f).getD i db = f (xs.getD i d) := by
  rw [List.getD_eq_getElem _ _ (by simpa using hi),
    List.getD_eq_getElem _ _ hi, List.getElem_map]

lemma eval_ok (Q : NDQF) (u v : List ℚ) (inverse : Bool)
    (hu : u.length = Q.mat.length) (hv : v.length = Q.mat.length) :
    Q.eval u v inverse
      = .ok (pairing (if inverse then Q.mat_inverse else intMatToQ Q.mat) u v) := by
  rw [NDQF.eval, if_pos ⟨by omega, hv⟩]

lemma eval_error (Q : NDQF) (u v : List ℚ) (inverse : Bool)
    (h : ¬ (u.length = v.length ∧ v.length = Q.mat.length)) :
    Q.eval u v inverse = .error "Inappropriately sized vectors for eval." := by
  rw [NDQF.eval, if_neg h]

lemma ratVec_length (v : List ℤ) : (ratVec v).length = v.length := by
  simp only [ratVec, List.length_map]

lemma betaAt_length (max_list : List (List ℤ)) (sizes : List ℤ) (len k : ℕ) :
    (betaAt max_list sizes len k).length = len := by
  simp [betaAt]

lemma maxFold_ok (Q : NDQF) (rep : List ℤ) (betas : List (List ℤ))
    (h : ∀ beta ∈ betas, (vadd rep beta).length = Q.mat.length) :
    ∀ a, maxFold Q rep betas a
      = .ok (runningMax (betas.map (classVal Q rep)) a) := by
  induction betas with
  | nil => intro a; rfl
  | cons beta rest ih =>
    intro a
    have hlen : (ratVec (vadd rep beta)).length = Q.mat.length := by
      rw [ratVec_length]; exact h beta (by simp)
    have habs : Q.find_abs (ratVec (vadd rep beta))
        = .ok (classVal Q rep beta) := by
      rw [NDQF.find_abs, eval_ok Q _ _ true hlen hlen]
      rfl
    rw [maxFold]
    simp only [habs]
    rw [ih (fun b hb => h b (List.mem_cons_of_mem _ hb))]
    rfl

lemma runningMax_spec (xs : List ℚ) :
    ∀ a, runningMax xs a ∈ a :: xs ∧ a ≤ runningMax xs a ∧
      ∀ x ∈ xs, x ≤ runningMax xs a := by
  induction xs with
  | nil => intro a; simp [runningMax]
  | cons x xs ih =>
    intro a
    have h := ih (if x > a then x else a)
    have hrw : runningMax (x :: xs) a = runningMax xs (if x > a then x else a) := rfl
    obtain ⟨hmem, hle, hub⟩ := h
    refine ⟨?_, ?_, ?_⟩
    · rw [hrw]
      rcases List.mem_cons.1 hmem with h1 | h1
      · rw [h1]
        by_cases hxa : x > a <;> simp [hxa]
      · simp [h1]
    · rw [hrw]
      refine le_trans ?_ hle
      by_cases hxa : x > a
      · rw [if_pos hxa]; exact le_of_lt hxa
      · rw [if_neg hxa]
    · intro y hy
      rw [hrw]
      rcases List.mem_cons.1 hy with h1 | h1
      · subst h1
        refine le_trans ?_ hle
        by_cases hxa : y > a
        · rw [if_pos hxa]
        · rw [if_neg hxa]; exact le_of_not_lt hxa
      · exact hub y h1

lemma runningMax_max (xs : List ℚ) (a : ℚ) (hne : xs ≠ [])
    (hgt : ∀ x ∈ xs, a < x) :
    runningMax xs a ∈ xs ∧ ∀ x ∈ xs, x ≤ runningMax xs a := by
  obtain ⟨hmem, hle, hub⟩ := runningMax_spec xs a
  refine ⟨?_, hub⟩
  rcases List.mem_cons.1 hmem with h1 | h1
  · exfalso
    obtain ⟨y, hy⟩ := List.exists_mem_of_ne_nil xs hne
    have h2 := hub y hy
    have h3 := hgt y hy
    rw [h1] at h2
    exact absurd (lt_of_lt_of_le h3 h2) (lt_irrefl a)
  · exact h1

lemma classMax_ok (Q : NDQF) (rep : List ℤ)
    (hn : Q.mat.length ≠ 0)
    (hlen : rep.length = Q.mat.length)
    (hpos : ∀ s ∈ (Q.max_bounds rep).2, 0 < s) :
    ∃ betas, Q.get_beta rep = .ok betas ∧ betas ≠ [] ∧
      (∀ beta ∈ betas, beta.length = Q.mat.length) ∧
      classMax Q rep
        = .ok (runningMax (betas.map (classVal Q rep)) (-maxint - 1)) := by
  have hgb := get_beta_ok Q rep hn hpos
  refine ⟨_, hgb, ?_, ?_, ?_⟩
  · have hp := prodNat_pos _ hpos
    apply List.ne_nil_of_length_pos
    simpa using hp
  · intro beta hb
    obtain ⟨k, hk, rfl⟩ := List.mem_map.1 hb
    exact betaAt_length _ _ _ _
  · rw [classMax]
    simp only [hgb]
    exact maxFold_ok Q rep _
      (fun beta hb => by
        obtain ⟨k, hk, rfl⟩ := List.mem_map.1 hb
        rw [vadd_length, betaAt_length, hlen]
        omega)
      (-maxint - 1)

lemma corrLoop_ok (Q : NDQF) (reps : List (List ℤ))
    (h : ∀ rep ∈ reps, ∃ m, classMax Q rep = .ok m) :
    corrLoop Q reps = .ok (reps.map (classMaxVal Q)) := by
  induction reps with
  | nil => rfl
  | cons rep rest ih =>
    obtain ⟨m, hm⟩ := h rep (by simp)
    have hval : classMaxVal Q rep = m := by
      rw [classMaxVal, hm]
      rfl
    rw [corrLoop]
    simp only [hm, ih (fun r hr => h r (List.mem_cons_of_mem _ hr))]
    rw [List.map_cons, hval]

lemma find_rep_length_mat (Q : NDQF) (l : List ℤ)
    (hbp : Q.basepoint.length = Q.mat.length)
    (hg : ∀ g ∈ Q.group.gen, g.length = Q.mat.length) :
    (Q.find_rep l).length = Q.mat.length := by
  rw [find_rep_length Q l (fun g hgm => (hg g hgm).trans hbp.symm)]
  exact hbp

lemma correction_terms_ok (Q : NDQF)
    (hreplen : ∀ l ∈ lrange Q.group.structure',
      (Q.find_rep l).length = Q.mat.length)
    (hn : Q.mat.length ≠ 0)
    (hpos : ∀ l ∈ lrange Q.group.structure',
      ∀ s ∈ (Q.max_bounds (Q.find_rep l)).2, 0 < s) :
    Q.correction_terms = .ok ((lrange Q.group.structure').map
      (fun l => classMaxVal Q (Q.find_rep l))) := by
  rw [NDQF.correction_terms]
  rw [corrLoop_ok Q _ ?hall]
  case hall =>
    intro rep hr
    obtain ⟨l, hl, rfl⟩ := List.mem_map.1 hr
    obtain ⟨betas, h1, h2, h3, h4⟩ := classMax_ok Q (Q.find_rep l) hn
      (hreplen l hl) (hpos l hl)
    exact ⟨_, h4⟩
  rw [List.map_map]
  rfl

/-- Claim C3, counterexample: the diagonal matrix `[[-1]]` is a legitimate
Smith diagonal factor (here of the matrix `[[-1]]` itself, with both
unimodular factors the identity — `is_smith_decomp` states the spec's
contract for the external decomposer), yet `Hom_Group` keeps the entry
`-1` in the structure sequence, while filtering diagonal entries of
absolute value 1 — as the claim describes — would leave the empty
sequence.  Only the value `+1` is dropped by `nontrivial`. -/
theorem hom_group_neg_one_counterexample :
    is_smith_decomp (Matrix.diagonal (fun _ : Fin 1 => (-1 : ℤ)))
      (Matrix.diagonal (fun _ : Fin 1 => (-1 : ℤ))) 1 1 ∧
    (Hom_Group.init [[-1]] [[1]]).structure' = [-1] ∧
    ¬ ((Hom_Group.init [[-1]] [[1]]).structure'
        = (np_diagonal [[-1]]).filter (fun d => d.natAbs != 1)) := by
  refine ⟨⟨⟨_, rfl⟩, Or.inl Matrix.det_one, Or.inl Matrix.det_one, by
    rw [one_mul, mul_one]⟩, ?_, ?_⟩
  · decide
  · decide

/-- Claim C3 (amended): the structure sequence is exactly the diagonal
with the entries equal to `1` removed — equal, as a list, to the
`≠ 1`-filtered diagonal, hence the same entries with the same
multiplicities in their original order; only the value `+1` is excluded,
and an entry `-1` is kept. -/
theorem hom_group_structure_ne_one (diagonal rows : List (List ℤ)) :
    (Hom_Group.init diagonal rows).structure'
      = (np_diagonal diagonal).filter (fun d => decide (d ≠ 1)) ∧
    List.Sublist (Hom_Group.init diagonal rows).structure' (np_diagonal diagonal) ∧
    ∀ x : ℤ, x ∈ (Hom_Group.init diagonal rows).structure'
      ↔ (x ∈ np_diagonal diagonal ∧ x ≠ 1) := by
  refine ⟨?_, List.filter_sublist _, ?_⟩
  · have hswap : (Hom_Group.init diagonal rows).structure'
        = (np_diagonal diagonal).filter (fun d => d != 1) := rfl
    rw [hswap]
    apply List.filter_congr
    intro x hx
    by_cases h : x = 1 <;> simp [h]
  · intro x
    simp [Hom_Group.init, nontrivial, List.mem_filter, bne_iff_ne]

/-- Claim C7: for every diagonal factor and row matrix handed to
`Hom_Group`, the number of generators equals the length of the structure
sequence, generators and relations together number the dimension, and the
relations are the leading rows of `V` while the generators are the
trailing rows (their concatenation is the full row list in order). -/
theorem hom_group_rank_invariant (diagonal rows : List (List ℤ)) :
    (Hom_Group.init diagonal rows).gen.length
        = (Hom_Group.init diagonal rows).structure'.length ∧
    (Hom_Group.init diagonal rows).gen.length
        + (Hom_Group.init diagonal rows).rel.length = diagonal.length ∧
    (Hom_Group.init diagonal rows).rel ++ (Hom_Group.init diagonal rows).gen
        = (List.range diagonal.length).map (fun i => rows.getD i []) := by
  have hdlen : (np_diagonal diagonal).length = diagonal.length := by
    simp [np_diagonal]
  have hk : (nontrivial (np_diagonal diagonal)).length ≤ diagonal.length := by
    calc (nontrivial (np_diagonal diagonal)).length
        ≤ (np_diagonal diagonal).length := List.length_filter_le _ _
      _ = diagonal.length := hdlen
  have hgen : (Hom_Group.init diagonal rows).gen.length
      = (nontrivial (np_diagonal diagonal)).length := by
    simp only [Hom_Group.init, pyRange, List.length_map, List.length_range]
    omega
  have hrel : (Hom_Group.init diagonal rows).rel.length
      = diagonal.length - (nontrivial (np_diagonal diagonal)).length := by
    simp only [Hom_Group.init, pyRange, List.length_map, List.length_range]
    omega
  refine ⟨hgen, by rw [hgen, hrel]; omega, ?_⟩
  exact pyRange_split diagonal.length (nontrivial (np_diagonal diagonal)).length
    (fun i => rows.getD i []) hk

/-- Claim C4, counterexample: `find_rep` applied to a coefficient list
whose length (0) differs from the length of the structure sequence (1)
does not raise — it returns the basepoint — whereas the spec-mandated
checked variant `find_rep_checked` errors on the same input. -/
theorem find_rep_unchecked_counterexample :
    (List.length ([] : List ℤ) ≠ Qc2.group.structure'.length) ∧
    find_rep_checked Qc2 []
      = .error "Coefficient list length does not match the group structure." ∧
    Qc2.find_rep [] = Qc2.basepoint := by
  refine ⟨by decide, rfl, by decide⟩

/-- Claim C4 (amended): `find_rep` performs no length validation: for any
coefficient list it returns (never raises) the vector
`basepoint + Σ coef[i] * gen[i]` where the sum runs over the zip of the
two lists, silently truncated to the shorter; in particular, when the
lengths agree this is the full sum the claim describes. -/
theorem find_rep_truncating_sum (Q : NDQF) (coef : List ℤ) (j : ℕ)
    (hg : ∀ g ∈ Q.group.gen, g.length = Q.basepoint.length)
    (hj : j < Q.basepoint.length) :
    (Q.find_rep coef).length = Q.basepoint.length ∧
    (Q.find_rep coef).getD j 0 = Q.basepoint.getD j 0
      + ((coef.zip Q.group.gen).map (fun p => p.1 * (p.2.getD j 0))).sum := by
  refine ⟨find_rep_length Q coef hg, ?_⟩
  rw [NDQF.find_rep, foldl_vadd_getD _ _ j (find_rep_mem_length Q coef hg) hj]
  congr 1
  rw [List.map_map]
  exact congrArg List.sum (List.map_congr_left (fun p hp =>
    smulv_getD p.1 p.2 j (by rw [hg p.2 (List.of_mem_zip hp).2]; exact hj)))

/-- Witness for the amended claim C4 at a concrete instance: a coefficient
list of length 2 against a single generator; the result is defined and its
single coordinate is `basepoint[0] + 5 * gen[0][0]`. -/
theorem find_rep_truncating_sum_witness :
    (∀ g ∈ Qc2.group.gen, g.length = Qc2.basepoint.length) ∧
    0 < Qc2.basepoint.length ∧
    ((Qc2.find_rep [5, 7]).length = Qc2.basepoint.length ∧
     (Qc2.find_rep [5, 7]).getD 0 0 = Qc2.basepoint.getD 0 0
       + ((([5, 7] : List ℤ).zip Qc2.group.gen).map
            (fun p => p.1 * (p.2.getD 0 0))).sum) :=
  ⟨by decide, by decide,
    find_rep_truncating_sum Qc2 [5, 7] 0 (by decide) (by decide)⟩

/-- Claim C5: `eval(u, v, inverse)` raises the dimension-mismatch error
exactly when the size of `u` or of `v` differs from the matrix dimension,
and otherwise returns the scalar `u · M · v` (`u · M⁻¹ · v` when
`inverse`), with no silent truncation. -/
theorem eval_dimension_check (Q : NDQF) (u v : List ℚ) (inverse : Bool) :
    ((∃ e, Q.eval u v inverse = .error e)
        ↔ (u.length ≠ Q.mat.length ∨ v.length ≠ Q.mat.length)) ∧
    (u.length = Q.mat.length → v.length = Q.mat.length →
      Q.eval u v inverse = .ok (pairing
        (if inverse then Q.mat_inverse else intMatToQ Q.mat) u v)) := by
  constructor
  · constructor
    · rintro ⟨e, he⟩
      by_contra hcon
      push_neg at hcon
      rw [eval_ok Q u v inverse hcon.1 hcon.2] at he
      exact Except.noConfusion he
    · intro h
      refine ⟨_, eval_error Q u v inverse ?_⟩
      rintro ⟨h1, h2⟩
      rcases h with h | h
      · exact h (h1.trans h2)
      · exact h h2
  · intro h1 h2
    exact eval_ok Q u v inverse h1 h2

/-- Witness for claim C5: on the form `[[-1]]`, a mismatched pair of
vectors errors while a matched pair evaluates to the pairing. -/
theorem eval_dimension_check_witness :
    (∃ e, Q0.eval [1, 2] [1] false = .error e) ∧
    Q0.eval [2] [3] true = .ok (pairing
      (if true then Q0.mat_inverse else intMatToQ Q0.mat) [2] [3]) :=
  ⟨(eval_dimension_check Q0 [1, 2] [1] false).1.mpr (by decide),
   (eval_dimension_check Q0 [2] [3] true).2 (by decide) (by decide)⟩

/-- Claim C2, counterexample: for the form `[[-2]]` and the representative
`[0]` (so `d_0 = 2`, `rep[0] = 0`), the claim's strict window
`-2 < j < 2` would give the single even candidate `[0]` and a size of
`d_0 = 2`; the code's candidate list is `[-2, 0, 2]` of size 3 — both
interval endpoints are included. -/
theorem max_bounds_window_counterexample :
    (Qc2.max_bounds [0]).1.getD 0 [] = [-2, 0, 2] ∧
    (Qc2.max_bounds [0]).2.getD 0 0 = 3 ∧
    (Qc2.max_bounds [0]).1.getD 0 [] ≠ [0] ∧ (3 : ℤ) ≠ 2 := by
  refine ⟨by decide, by decide, by decide, by decide⟩

lemma max_bounds_getD_spec (Q : NDQF) (rep : List ℤ) (i : ℕ) (d r : ℤ)
    (hi : i < Q.mat.length)
    (hdef : d = -((Q.mat.getD i []).getD i 0))
    (hr : r = rep.getD i 0)
    (hd : 0 ≤ d) :
    (∀ j : ℤ, j ∈ (Q.max_bounds rep).1.getD i []
        ↔ (-d - r ≤ j ∧ j ≤ d - r ∧ j % 2 = 0)) ∧
    (((Q.max_bounds rep).1.getD i []).length : ℤ)
      = (if (d + r) % 2 = 0 then d + 1 else d) ∧
    (Q.max_bounds rep).2.getD i 0 = (((Q.max_bounds rep).1.getD i []).length : ℤ) ∧
    ((Q.max_bounds rep).1.getD i [] = [] ↔ (d = 0 ∧ r % 2 ≠ 0)) := by
  have hfst : (Q.max_bounds rep).1.getD i [] = evens (-d - r) (d + 1 - r) := by
    rw [max_bounds_fst_getD Q rep i hi, ← hdef, ← hr]
  have hhi : d + 1 - r = (-d - r) + ((2 * d + 1).toNat : ℤ) := by omega
  have hlen : (((Q.max_bounds rep).1.getD i []).length : ℤ)
      = (if (d + r) % 2 = 0 then d + 1 else d) := by
    rw [hfst, hhi, evens_length]
    by_cases h1 : (-d - r) % 2 = 0 <;> by_cases h2 : (d + r) % 2 = 0 <;>
      simp only [h1, h2, if_true, if_false] <;> push_cast <;> omega
  refine ⟨?_, hlen, max_bounds_snd_getD Q rep i hi, ?_⟩
  · intro j
    rw [hfst, mem_evens]
    omega
  · rw [← List.length_eq_zero]
    constructor
    · intro h
      rw [h] at hlen
      by_cases h2 : (d + r) % 2 = 0
      · rw [if_pos h2] at hlen; omega
      · rw [if_neg h2] at hlen; omega
    · intro ⟨h1, h2⟩
      have h3 : ¬ ((d + r) % 2 = 0) := by omega
      rw [if_neg h3] at hlen
      omega

/-- Claim C2 (amended): writing `d = -M[i,i]` and `r = rep[i]` (with
`d ≥ 0`), the i-th candidate list consists of the even integers `j` with
`-d - r ≤ j ≤ d - r` — both bounds inclusive; its size (also the i-th
entry of the size list) is `d + 1` when `d + r` is even and `d` when it is
odd, and the list is empty exactly when `d = 0` and `r` is odd. -/
theorem max_bounds_characterization (Q : NDQF) (rep : List ℤ) (i : ℕ) (d r : ℤ)
    (hi : i < Q.mat.length)
    (hdef : d = -((Q.mat.getD i []).getD i 0))
    (hr : r = rep.getD i 0)
    (hd : 0 ≤ d) :
    (∀ j : ℤ, j ∈ (Q.max_bounds rep).1.getD i []
        ↔ (-d - r ≤ j ∧ j ≤ d - r ∧ j % 2 = 0)) ∧
    (((Q.max_bounds rep).1.getD i []).length : ℤ)
      = (if (d + r) % 2 = 0 then d + 1 else d) ∧
    (Q.max_bounds rep).2.getD i 0 = (((Q.max_bounds rep).1.getD i []).length : ℤ) ∧
    ((Q.max_bounds rep).1.getD i [] = [] ↔ (d = 0 ∧ r % 2 ≠ 0)) :=
  max_bounds_getD_spec Q rep i d r hi hdef hr hd

/-- Witness for the amended claim C2: the form `[[-2]]` with
representative `[1]`, so `d = 2`, `r = 1`; the candidate list is the even
window `[-3, 1]`, of size `d = 2` since `d + r` is odd. -/
theorem max_bounds_characterization_witness :
    ((0 : ℕ) < Qc2.mat.length ∧ (2 : ℤ) = -((Qc2.mat.getD 0 []).getD 0 0) ∧
      (1 : ℤ) = ([1] : List ℤ).getD 0 0 ∧ (0 : ℤ) ≤ 2) ∧
    ((∀ j : ℤ, j ∈ (Qc2.max_bounds [1]).1.getD 0 []
        ↔ (-2 - 1 ≤ j ∧ j ≤ 2 - 1 ∧ j % 2 = 0)) ∧
     (((Qc2.max_bounds [1]).1.getD 0 []).length : ℤ)
       = (if ((2 : ℤ) + 1) % 2 = 0 then 2 + 1 else 2) ∧
     (Qc2.max_bounds [1]).2.getD 0 0
       = (((Qc2.max_bounds [1]).1.getD 0 []).length : ℤ) ∧
     ((Qc2.max_bounds [1]).1.getD 0 [] = [] ↔ ((2 : ℤ) = 0 ∧ (1 : ℤ) % 2 ≠ 0))) :=
  ⟨⟨by decide, by decide, by decide, by decide⟩,
    max_bounds_characterization Qc2 [1] 0 2 1 (by decide) (by decide) (by decide)
      (by decide)⟩

/-- Claim C6: for a representative whose candidate-list sizes are all
positive, `get_beta` succeeds and yields exactly `prod(sizes)` shift
vectors; the k-th vector selects from each candidate list the entry
indexed by the little-endian mixed-radix digits of `k` (coordinate 0 the
fastest-varying digit; a carry resets a position to 0 and moves to the
next one, as `increment` implements). -/
theorem get_beta_mixed_radix (Q : NDQF) (rep : List ℤ)
    (hn : Q.mat.length ≠ 0)
    (hpos : ∀ s ∈ (Q.max_bounds rep).2, 0 < s) :
    ∃ betas, Q.get_beta rep = .ok betas ∧
      (betas.length : ℤ) = ((Q.max_bounds rep).2).prod ∧
      ∀ k, k < betas.length →
        betas.getD k [] = betaAt (Q.max_bounds rep).1 (Q.max_bounds rep).2
          Q.mat.length k := by
  refine ⟨_, get_beta_ok Q rep hn hpos, ?_, ?_⟩
  · rw [List.length_map, List.length_range, prodNat_cast _ hpos]
  · intro k hk
    rw [List.length_map, List.length_range] at hk
    rw [List.getD_eq_getElem _ _ (by simpa using hk), List.getElem_map,
      List.getElem_range]

/-- Witness for claim C6: the form `[[-1]]` with representative `[1]`
(candidate list `[-2, 0]`, two betas in mixed-radix order). -/
theorem get_beta_mixed_radix_witness :
    (Q0.mat.length ≠ 0 ∧ ∀ s ∈ (Q0.max_bounds [1]).2, 0 < s) ∧
    ∃ betas, Q0.get_beta [1] = .ok betas ∧
      (betas.length : ℤ) = ((Q0.max_bounds [1]).2).prod ∧
      ∀ k, k < betas.length →
        betas.getD k [] = betaAt (Q0.max_bounds [1]).1 (Q0.max_bounds [1]).2
          Q0.mat.length k :=
  ⟨⟨by decide, by decide⟩, get_beta_mixed_radix Q0 [1] (by decide) (by decide)⟩

/-- Claim C1: under the standing assumptions that make the search
well-defined (nonzero dimension, representatives of the right length,
positive candidate-list sizes, and every searched value above the
initial sentinel `-maxint - 1`), `correction_terms` returns one scalar
per coefficient list of `lrange(structure)`, and the i-th scalar is the
maximum of `find_abs(rep + beta)` (that is, `classVal`) over exactly the
shift vectors produced by `get_beta` for the i-th representative: it is
attained at one of them and bounds all of them. -/
theorem correction_terms_max (Q : NDQF)
    (hbp : Q.basepoint.length = Q.mat.length)
    (hg : ∀ g ∈ Q.group.gen, g.length = Q.mat.length)
    (hn : Q.mat.length ≠ 0)
    (hpos : ∀ l ∈ lrange Q.group.structure',
      ∀ s ∈ (Q.max_bounds (Q.find_rep l)).2, 0 < s)
    (hsent : ∀ l ∈ lrange Q.group.structure', ∀ betas,
      Q.get_beta (Q.find_rep l) = .ok betas →
      ∀ beta ∈ betas, -maxint - 1 < classVal Q (Q.find_rep l) beta) :
    ∃ ts, Q.correction_terms = .ok ts ∧
      ts.length = (lrange Q.group.structure').length ∧
      ∀ i, i < ts.length →
        ∃ betas,
          Q.get_beta (Q.find_rep ((lrange Q.group.structure').getD i []))
            = .ok betas ∧
          (∃ beta ∈ betas, ts.getD i 0
            = classVal Q (Q.find_rep ((lrange Q.group.structure').getD i []))
                beta) ∧
          ∀ beta ∈ betas,
            classVal Q (Q.find_rep ((lrange Q.group.structure').getD i [])) beta
              ≤ ts.getD i 0 := by
  have hreplen : ∀ l ∈ lrange Q.group.structure',
      (Q.find_rep l).length = Q.mat.length :=
    fun l _ => find_rep_length_mat Q l hbp hg
  refine ⟨_, correction_terms_ok Q hreplen hn hpos, by rw [List.length_map], ?_⟩
  intro i hi
  rw [List.length_map] at hi
  have hl : (lrange Q.group.structure').getD i [] ∈ lrange Q.group.structure' := by
    rw [List.getD_eq_getElem _ _ hi]
    exact List.getElem_mem hi
  obtain ⟨betas, h1, h2, h3, h4⟩ := classMax_ok Q
    (Q.find_rep ((lrange Q.group.structure').getD i [])) hn
    (hreplen _ hl) (hpos _ hl)
  have hts : ((lrange Q.group.structure').map
        (fun l => classMaxVal Q (Q.find_rep l))).getD i 0
      = classMaxVal Q (Q.find_rep ((lrange Q.group.structure').getD i [])) :=
    getD_map_of_lt _ _ i [] 0 hi
  have hval : classMaxVal Q (Q.find_rep ((lrange Q.group.structure').getD i []))
      = runningMax (betas.map
          (classVal Q (Q.find_rep ((lrange Q.group.structure').getD i []))))
        (-maxint - 1) := by
    rw [classMaxVal, h4]
    rfl
  have hmax := runningMax_max
    (betas.map (classVal Q (Q.find_rep ((lrange Q.group.structure').getD i []))))
    (-maxint - 1) (by simpa using h2)
    (fun x hx => by
      obtain ⟨b, hb, rfl⟩ := List.mem_map.1 hx
      exact hsent _ hl betas h1 b hb)
  refine ⟨betas, h1, ?_, ?_⟩
  · obtain ⟨b, hb, hbe⟩ := List.mem_map.1 hmax.1
    exact ⟨b, hb, by rw [hts, hval, ← hbe]⟩
  · intro b hb
    rw [hts, hval]
    exact hmax.2 _ (List.mem_map_of_mem _ hb)

/-- Witness for claim C1: the form `[[-1]]` (trivial group, a single
coefficient list); the hypotheses are discharged by computation and the
conclusion is obtained from the theorem. -/
theorem correction_terms_max_witness :
    ∃ ts, Q0.correction_terms = .ok ts ∧
      ts.length = (lrange Q0.group.structure').length ∧
      ∀ i, i < ts.length →
        ∃ betas,
          Q0.get_beta (Q0.find_rep ((lrange Q0.group.structure').getD i []))
            = .ok betas ∧
          (∃ beta ∈ betas, ts.getD i 0
            = classVal Q0 (Q0.find_rep ((lrange Q0.group.structure').getD i []))
                beta) ∧
          ∀ beta ∈ betas,
            classVal Q0 (Q0.find_rep ((lrange Q0.group.structure').getD i []))
                beta
              ≤ ts.getD i 0 :=
  correction_terms_max Q0 (by decide) (by decide) (by decide) (by decide)
    (by
      intro l hl betas hbet b hb
      have hl0 : l = [] :=
        List.mem_singleton.1 (show l ∈ ([[]] : List (List ℤ)) from hl)
      subst hl0
      have hgb : Q0.get_beta (Q0.find_rep []) = .ok [[-2], [0]] := rfl
      rw [hgb] at hbet
      injection hbet with hbet
      subst hbet
      fin_cases hb <;> exact of_decide_eq_true (by with_unfolding_all rfl))

/-- Claim C10: when the structure sequence is empty, `lrange` produces
exactly one coefficient list (the empty one), the representative is the
basepoint itself, and `correction_terms` returns exactly one scalar — the
maximum of `find_abs` over the shift candidates of the basepoint. -/
theorem correction_terms_trivial_group (Q : NDQF)
    (h0 : Q.group.structure' = [])
    (hbp : Q.basepoint.length = Q.mat.length)
    (hn : Q.mat.length ≠ 0)
    (hpos : ∀ s ∈ (Q.max_bounds Q.basepoint).2, 0 < s)
    (hsent : ∀ betas, Q.get_beta Q.basepoint = .ok betas →
      ∀ beta ∈ betas, -maxint - 1 < classVal Q Q.basepoint beta) :
    lrange Q.group.structure' = [[]] ∧
    ∃ m betas, Q.correction_terms = .ok [m] ∧
      Q.get_beta Q.basepoint = .ok betas ∧
      (∃ beta ∈ betas, m = classVal Q Q.basepoint beta) ∧
      ∀ beta ∈ betas, classVal Q Q.basepoint beta ≤ m := by
  have hlr : lrange Q.group.structure' = [[]] := by rw [h0]; rfl
  have hreplen : ∀ l ∈ lrange Q.group.structure',
      (Q.find_rep l).length = Q.mat.length := by
    intro l hl
    rw [hlr] at hl
    have hl0 : l = [] := by simpa using hl
    subst hl0
    exact hbp
  have hpos' : ∀ l ∈ lrange Q.group.structure',
      ∀ s ∈ (Q.max_bounds (Q.find_rep l)).2, 0 < s := by
    intro l hl
    rw [hlr] at hl
    have hl0 : l = [] := by simpa using hl
    subst hl0
    exact hpos
  have hct := correction_terms_ok Q hreplen hn hpos'
  rw [hlr] at hct
  obtain ⟨betas, h1, h2, h3, h4⟩ := classMax_ok Q Q.basepoint hn hbp hpos
  have hval : classMaxVal Q Q.basepoint
      = runningMax (betas.map (classVal Q Q.basepoint)) (-maxint - 1) := by
    rw [classMaxVal, h4]
    rfl
  have hmax := runningMax_max (betas.map (classVal Q Q.basepoint))
    (-maxint - 1) (by simpa using h2)
    (fun x hx => by
      obtain ⟨b, hb, rfl⟩ := List.mem_map.1 hx
      exact hsent betas h1 b hb)
  refine ⟨hlr, classMaxVal Q Q.basepoint, betas, hct, h1, ?_, ?_⟩
  · obtain ⟨b, hb, hbe⟩ := List.mem_map.1 hmax.1
    exact ⟨b, hb, by rw [hval, ← hbe]⟩
  · intro b hb
    rw [hval]
    exact hmax.2 _ (List.mem_map_of_mem _ hb)

/-- Witness for claim C10 at the form `[[-1]]`: the single correction term
is the maximum over the basepoint's two shift candidates. -/
theorem correction_terms_trivial_group_witness :
    lrange Q0.group.structure' = [[]] ∧
    ∃ m betas, Q0.correction_terms = .ok [m] ∧
      Q0.get_beta Q0.basepoint = .ok betas ∧
      (∃ beta ∈ betas, m = classVal Q0 Q0.basepoint beta) ∧
      ∀ beta ∈ betas, classVal Q0 Q0.basepoint beta ≤ m :=
  correction_terms_trivial_group Q0 (by decide) (by decide) (by decide)
    (by decide)
    (by
      intro betas hbet b hb
      have hgb : Q0.get_beta Q0.basepoint = .ok [[-2], [0]] := rfl
      rw [hgb] at hbet
      injection hbet with hbet
      subst hbet
      fin_cases hb <;> exact of_decide_eq_true (by with_unfolding_all rfl))

lemma flatten_map_singleton (l : List ℕ) (f : ℕ → List ℤ) :
    ((l.map (fun i => [f i])).flatten) = l.map f := by
  induction l with
  | nil => rfl
  | cons a t ih => simp [ih]

lemma lrange_singleton (z : ℤ) :
    lrange [z] = (List.range z.toNat).map (fun i : ℕ => [(i : ℤ)]) := by
  rw [lrange]
  have h1 : (fun i_sub : ℕ => (lrange []).map (fun l => ((i_sub : ℤ)) :: l))
      = fun i_sub : ℕ => [[(i_sub : ℤ)]] := rfl
  rw [h1]
  exact flatten_map_singleton _ _

lemma ndqf_neg_group (n : ℕ) (hn : 2 ≤ n) :
    (ndqf_neg n).group = ⟨[(n : ℤ)], [[1]], []⟩ := by
  have habs : ((-(n : ℤ)).natAbs : ℤ) = (n : ℤ) := by simp
  have hne : ((n : ℤ) != 1) = true := by
    rw [bne_iff_ne]
    intro h
    omega
  have hgroup : (ndqf_neg n).group
      = Hom_Group.init [[((-(n : ℤ)).natAbs : ℤ)]] [[1]] := rfl
  rw [hgroup, habs]
  have hdiag : np_diagonal [[(n : ℤ)]] = [(n : ℤ)] := rfl
  have hstr : nontrivial [(n : ℤ)] = [(n : ℤ)] := by
    simp [nontrivial, hne]
  rw [Hom_Group.init]
  simp only [hdiag, hstr]
  rfl

set_option maxRecDepth 4000 in
/-- Claim C9, counterexample: for `n = 1` the matrix `[[-1]]` produces the
empty structure sequence (the invariant factor 1 is filtered as trivial),
no generators and one relation — not structure `[1]` with generator `[1]`
and no relations as the claim asserts for every positive `n`.  (The
correction-term list does have length 1; it is the single value `-1`.) -/
theorem ndqf_neg_one_counterexample :
    (ndqf_neg 1).group.structure' = [] ∧
    (ndqf_neg 1).group.structure' ≠ [1] ∧
    (ndqf_neg 1).group.gen = [] ∧
    (ndqf_neg 1).group.rel = [[1]] ∧
    ∃ ts, (ndqf_neg 1).correction_terms = .ok ts ∧ ts.length = 1 := by
  refine ⟨by decide, by decide, by decide, by decide, ⟨[-1], ?_, rfl⟩⟩
  with_unfolding_all rfl

/-- Claim C9 (amended): for every `n ≥ 2`, the form built from `[[-n]]`
has homology structure `[n]`, the single generator `[1]`, no relations,
and a correction-term list of length exactly `n`; at `n = 1` the
structure is empty, there is no generator and one relation instead
(`Z/1` is trivial), while the correction-term list still has length 1. -/
theorem ndqf_neg_properties (n : ℕ) (hn : 2 ≤ n) :
    (ndqf_neg n).group.structure' = [(n : ℤ)] ∧
    (ndqf_neg n).group.gen = [[1]] ∧
    (ndqf_neg n).group.rel = [] ∧
    ∃ ts, (ndqf_neg n).correction_terms = .ok ts ∧ ts.length = n := by
  have hg := ndqf_neg_group n hn
  have hmatlen : (ndqf_neg n).mat.length = 1 := rfl
  have hbp : (ndqf_neg n).basepoint.length = 1 := rfl
  have hstruct : (ndqf_neg n).group.structure' = [(n : ℤ)] := by rw [hg]
  have hgen : (ndqf_neg n).group.gen = [[1]] := by rw [hg]
  refine ⟨hstruct, hgen, by rw [hg], ?_⟩
  have hreplen : ∀ l ∈ lrange (ndqf_neg n).group.structure',
      ((ndqf_neg n).find_rep l).length = (ndqf_neg n).mat.length := by
    intro l hl
    apply find_rep_length_mat
    · rw [hbp, hmatlen]
    · rw [hgen]
      intro g hgm
      have hg1 : g = [1] := List.mem_singleton.1 hgm
      rw [hg1, hmatlen]
      rfl
  have hzc : (2 : ℤ) ≤ (n : ℤ) := by exact_mod_cast hn
  have hpos : ∀ l ∈ lrange (ndqf_neg n).group.structure',
      ∀ s ∈ ((ndqf_neg n).max_bounds ((ndqf_neg n).find_rep l)).2, 0 < s := by
    intro l hl s hs
    have hlen2 : ((ndqf_neg n).max_bounds ((ndqf_neg n).find_rep l)).2.length
        = 1 := by
      rw [max_bounds_snd_length, hmatlen]
    obtain ⟨a, ha⟩ := List.length_eq_one.1 hlen2
    rw [ha] at hs
    have hs' : s = a := List.mem_singleton.1 hs
    have hget : ((ndqf_neg n).max_bounds ((ndqf_neg n).find_rep l)).2.getD 0 0
        = a := by
      rw [ha]
      rfl
    have hentry : (((ndqf_neg n).mat.getD 0 []).getD 0 0) = -(n : ℤ) := rfl
    have hdef : (n : ℤ) = -(((ndqf_neg n).mat.getD 0 []).getD 0 0) := by
      rw [hentry]
      ring
    have hchar := max_bounds_getD_spec (ndqf_neg n)
      ((ndqf_neg n).find_rep l) 0 (n : ℤ)
      (((ndqf_neg n).find_rep l).getD 0 0)
      (by rw [hmatlen]; omega) hdef rfl (by omega)
    obtain ⟨-, hlen, hsz, -⟩ := hchar
    rw [hget] at hsz
    rw [hs', hsz, hlen]
    split <;> omega
  have hct := correction_terms_ok (ndqf_neg n) hreplen (by rw [hmatlen]; omega)
    hpos
  refine ⟨_, hct, ?_⟩
  rw [List.length_map, hstruct, lrange_singleton, List.length_map,
    List.length_range, Int.toNat_natCast]

/-- Witness for the amended claim C9 at `n = 2`. -/
theorem ndqf_neg_properties_witness :
    2 ≤ 2 ∧ ((ndqf_neg 2).group.structure' = [(2 : ℤ)] ∧
      (ndqf_neg 2).group.gen = [[1]] ∧ (ndqf_neg 2).group.rel = [] ∧
      ∃ ts, (ndqf_neg 2).correction_terms = .ok ts ∧ ts.length = 2) :=
  ⟨by omega, ndqf_neg_properties 2 (by omega)⟩

lemma qmat_eq_mapMatrix {n : ℕ} (A : Matrix (Fin n) (Fin n) ℤ) :
    qmat A = (Int.castRingHom ℚ).mapMatrix A := rfl

lemma qmat_mul {n : ℕ} (A B : Matrix (Fin n) (Fin n) ℤ) :
    qmat (A * B) = qmat A * qmat B := by
  rw [qmat_eq_mapMatrix, qmat_eq_mapMatrix, qmat_eq_mapMatrix,
    RingHom.mapMatrix_apply, RingHom.mapMatrix_apply, RingHom.mapMatrix_apply]
  exact Matrix.map_mul

lemma qmat_det {n : ℕ} (A : Matrix (Fin n) (Fin n) ℤ) :
    (qmat A).det = ((A.det : ℤ) : ℚ) := by
  rw [qmat_eq_mapMatrix]
  exact (RingHom.map_det _ A).symm

lemma qmat_adjugate {n : ℕ} (A : Matrix (Fin n) (Fin n) ℤ) :
    (qmat A).adjugate = qmat A.adjugate := by
  rw [qmat_eq_mapMatrix, qmat_eq_mapMatrix]
  exact (RingHom.map_adjugate _ A).symm

lemma rint_qmat {n : ℕ} (A : Matrix (Fin n) (Fin n) ℤ) :
    rint (qmat A) = qmat A := by
  ext i j
  simp only [rint, qmat, Matrix.map_apply]
  rw [round_intCast]

lemma qmat_zsmul {n : ℕ} (c : ℤ) (A : Matrix (Fin n) (Fin n) ℤ) :
    qmat (c • A) = ((c : ℤ) : ℚ) • qmat A := by
  ext i j
  simp only [qmat, Matrix.map_apply, Matrix.smul_apply, smul_eq_mul]
  push_cast
  ring

lemma matI_eq_inv {n : ℕ} (A : Matrix (Fin n) (Fin n) ℚ) : matI A = A⁻¹ := by
  rw [matI, Matrix.inv_def, Ring.inverse_eq_inv']

lemma inv_qmat_unimodular {n : ℕ} (W : Matrix (Fin n) (Fin n) ℤ)
    (hW : W.det = 1 ∨ W.det = -1) :
    (qmat W)⁻¹ = qmat (W.det • W.adjugate) := by
  rw [Matrix.inv_def, Ring.inverse_eq_inv', qmat_adjugate, qmat_det, qmat_zsmul]
  rcases hW with h | h <;> rw [h] <;> norm_num

lemma rint_matI_unimodular {n : ℕ} (W : Matrix (Fin n) (Fin n) ℤ)
    (hW : W.det = 1 ∨ W.det = -1) :
    rint (matI (qmat W)) = (qmat W)⁻¹ := by
  rw [matI_eq_inv, inv_qmat_unimodular W hW, rint_qmat]

lemma isUnit_qmat_det {n : ℕ} (W : Matrix (Fin n) (Fin n) ℤ)
    (hW : W.det = 1 ∨ W.det = -1) : IsUnit (qmat W).det := by
  rw [qmat_det]
  rcases hW with h | h <;> rw [h]
  · simp
  · simp

/-- Claim C8, counterexample: take `M = [[0]]` with the Smith decomposition
`U = V = [[1]]`, `D = [[0]]` (both factors unimodular, `U·D·V = M`).
`rational_inverse` maps the zero diagonal entry to `0` (`flip`'s
zero-for-zero convention), so `M · M⁻¹ = 0 ≠ Identity`: the claim as
stated fails for singular decompositions. -/
theorem rational_inverse_singular_counterexample :
    ((1 : Matrix (Fin 1) (Fin 1) ℤ) * Matrix.diagonal (fun _ : Fin 1 => (0 : ℤ))
        * 1 = Matrix.diagonal (fun _ : Fin 1 => (0 : ℤ))) ∧
    Matrix.det (1 : Matrix (Fin 1) (Fin 1) ℤ) = 1 ∧
    qmat (Matrix.diagonal (fun _ : Fin 1 => (0 : ℤ)))
        * rational_inverse (qmat (Matrix.diagonal (fun _ : Fin 1 => (0 : ℤ))))
            (qmat (1 : Matrix (Fin 1) (Fin 1) ℤ)) (qmat 1)
      ≠ 1 := by
  refine ⟨by rw [one_mul, mul_one], Matrix.det_one, ?_⟩
  have hzero : qmat (Matrix.diagonal (fun _ : Fin 1 => (0 : ℤ))) = 0 := by
    rw [Matrix.diagonal_zero]
    ext i j
    simp [qmat, Matrix.map_apply]
  rw [hzero, zero_mul]
  intro h
  have h00 := congrFun (congrFun h 0) 0
  simp [Matrix.one_apply_eq] at h00

/-- Claim C8 (amended): given a Smith decomposition `U·D·V = M` with `U`,
`V` unimodular and every diagonal entry of `D` nonzero (i.e. `M`
nonsingular — without this the zero-for-zero `flip` convention makes the
product differ from the identity, as the counterexample shows), the matrix
returned by `rational_inverse` satisfies `M · M⁻¹ = 1` exactly in rational
arithmetic. -/
theorem rational_inverse_round_trip (n : ℕ) (d : Fin n → ℤ)
    (U V M : Matrix (Fin n) (Fin n) ℤ)
    (hU : U.det = 1 ∨ U.det = -1) (hV : V.det = 1 ∨ V.det = -1)
    (hM : U * Matrix.diagonal d * V = M)
    (hd : ∀ i, d i ≠ 0) :
    qmat M * rational_inverse (qmat (Matrix.diagonal d)) (qmat U) (qmat V)
      = 1 := by
  have hD1 : qmat (Matrix.diagonal d)
      = Matrix.diagonal (fun i => ((d i : ℤ) : ℚ)) := by
    rw [qmat]
    exact Matrix.diagonal_map (by norm_num)
  have hD2 : (qmat (Matrix.diagonal d)).map flipQ
      = Matrix.diagonal (fun i => flipQ ((d i : ℤ) : ℚ)) := by
    rw [hD1]
    exact Matrix.diagonal_map (by rw [flipQ]; norm_num)
  have hDF : Matrix.diagonal (fun i => ((d i : ℤ) : ℚ))
      * Matrix.diagonal (fun i => flipQ ((d i : ℤ) : ℚ)) = 1 := by
    rw [Matrix.diagonal_mul_diagonal]
    have hfun : (fun i => ((d i : ℤ) : ℚ) * flipQ ((d i : ℤ) : ℚ))
        = fun _ : Fin n => (1 : ℚ) := by
      funext i
      have hne : ((d i : ℤ) : ℚ) ≠ 0 := Int.cast_ne_zero.mpr (hd i)
      rw [flipQ, if_neg hne, mul_one_div_cancel hne]
    rw [hfun, Matrix.diagonal_one]
  have hRI : rational_inverse (qmat (Matrix.diagonal d)) (qmat U) (qmat V)
      = (qmat V)⁻¹ * Matrix.diagonal (fun i => flipQ ((d i : ℤ) : ℚ))
          * (qmat U)⁻¹ := by
    rw [rational_inverse, rint_matI_unimodular V hV, rint_matI_unimodular U hU,
      hD2]
  have hQM : qmat M = qmat U * qmat (Matrix.diagonal d) * qmat V := by
    rw [← hM, qmat_mul, qmat_mul]
  rw [hRI, hQM, hD1]
  rw [mul_assoc ((qmat V)⁻¹) _ _]
  rw [mul_assoc (qmat U * Matrix.diagonal (fun i => ((d i : ℤ) : ℚ))) (qmat V) _]
  rw [← mul_assoc (qmat V) ((qmat V)⁻¹) _]
  rw [Matrix.mul_nonsing_inv _ (isUnit_qmat_det V hV), one_mul]
  rw [mul_assoc (qmat U) _ _]
  rw [← mul_assoc (Matrix.diagonal (fun i => ((d i : ℤ) : ℚ))) _ _]
  rw [hDF, one_mul]
  exact Matrix.mul_nonsing_inv _ (isUnit_qmat_det U hU)

/-- Witness for the amended claim C8: the 1×1 decomposition
`[[-1]] * [[2]] * [[1]] = [[-2]]`. -/
theorem rational_inverse_round_trip_witness :
    (Matrix.det (-1 : Matrix (Fin 1) (Fin 1) ℤ) = 1
        ∨ Matrix.det (-1 : Matrix (Fin 1) (Fin 1) ℤ) = -1) ∧
    ((-1 : Matrix (Fin 1) (Fin 1) ℤ) * Matrix.diagonal (fun _ : Fin 1 => (2 : ℤ))
        * 1 = Matrix.diagonal (fun _ : Fin 1 => (-2 : ℤ))) ∧
    qmat (Matrix.diagonal (fun _ : Fin 1 => (-2 : ℤ)))
        * rational_inverse (qmat (Matrix.diagonal (fun _ : Fin 1 => (2 : ℤ))))
            (qmat (-1 : Matrix (Fin 1) (Fin 1) ℤ)) (qmat 1)
      = 1 := by
  have hdetneg : Matrix.det (-1 : Matrix (Fin 1) (Fin 1) ℤ) = -1 := by
    rw [Matrix.det_fin_one]
    rfl
  have hdec : (-1 : Matrix (Fin 1) (Fin 1) ℤ)
      * Matrix.diagonal (fun _ : Fin 1 => (2 : ℤ)) * 1
      = Matrix.diagonal (fun _ : Fin 1 => (-2 : ℤ)) := by
    rw [mul_one]
    ext i j
    fin_cases i
    fin_cases j
    simp [Matrix.mul_apply]
  refine ⟨Or.inr hdetneg, hdec, ?_⟩
  exact rational_inverse_round_trip 1 (fun _ => 2) (-1) 1
    (Matrix.diagonal (fun _ : Fin 1 => (-2 : ℤ)))
    (Or.inr hdetneg) (Or.inl Matrix.det_one) hdec (fun i => by norm_num)
